import Mathlib

/-!
Shallow embedding of the Mapbox Vector Tile decoder
(src/include/mapbox/vector_tile.hpp of AlpineMapsOrg/vector-tile).

Protocol-buffer views are modelled as lists of already-scanned fields:
the external collaborator protozero (pbf_reader) yields, per field, a tag
number together with a typed payload.  A length-delimited payload is kept
in its intended interpretation (a string, a packed uint32 run, or a nested
message); varints and the two fixed widths keep their raw numeric payload.
Floating-point payloads are represented by their IEEE-754 bit patterns,
so the float-to-double widening of the FLOAT case (which is exact) is a
computation on bit patterns and no Float arithmetic enters the model.
-/

namespace VectorTile

/-- One protobuf wire payload, as surfaced by the pbf_reader collaborator. -/
inductive PBValue where
  /-- a varint payload (wire type 0) -/
  | varint (n : Nat)
  /-- a 64-bit fixed payload (wire type 1), kept as its raw bit pattern -/
  | fixed64 (bits : Nat)
  /-- a 32-bit fixed payload (wire type 5), kept as its raw bit pattern -/
  | fixed32 (bits : Nat)
  /-- a length-delimited payload read as a string -/
  | str (s : String)
  /-- a length-delimited payload read as a packed uint32 run -/
  | packed (ws : List Nat)
  /-- a length-delimited payload read as a nested message -/
  | msg (fields : List (Nat × PBValue))

/-- The decoded attribute value, mirroring mapbox::feature::value
(null, bool, uint64, int64, double, string).  The double variant stores
the IEEE-754 binary64 bit pattern. -/
inductive Value where
  | null
  | boolVal (b : Bool)
  | uintVal (n : Nat)
  | intVal (i : Int)
  | doubleVal (bits : Nat)
  | strVal (s : String)
  deriving DecidableEq

/-- Error kinds: in the source every failure is a std::runtime_error with a
message; the model distinguishes the kinds named by the specification.
truncatedParameters stands for the geometry stream ending in the middle of
a MoveTo/LineTo parameter pair (in the source this dereferences the end
iterator); wireTypeMismatch stands for a protozero read of a payload whose
wire type does not match the accessor. -/
inductive DecodeError where
  | unevenTags
  | valueIndexOutOfRange
  | keyIndexOutOfRange
  | unknownCommand
  | coordinateOutOfRange
  | truncatedParameters
  | wireTypeMismatch
  | missingLayerName
  deriving DecidableEq

deriving instance DecidableEq for Except

/-- uint64 truncation of a varint payload (protozero delivers at most 64 bits). -/
def toUInt64 (n : Nat) : Nat := n % 2 ^ 64

/-- Reading a varint payload as int64 (two's complement). -/
def toInt64 (n : Nat) : Int :=
  let m : Nat := n % 2 ^ 64
  if m < 2 ^ 63 then (m : Int) else (m : Int) - 2 ^ 64

/-- protozero decode_zigzag64, used by get_sint64. -/
def zigzag64 (n : Nat) : Int :=
  let m : Nat := n % 2 ^ 64
  if m % 2 = 0 then ((m / 2 : Nat) : Int) else -((m / 2 : Nat) : Int) - 1

/-- protozero decode_zigzag32, applied to a uint32-cast word. -/
def zigzag32 (n : Nat) : Int :=
  let m : Nat := n % 2 ^ 32
  if m % 2 = 0 then ((m / 2 : Nat) : Int) else -((m / 2 : Nat) : Int) - 1

/-- Exact IEEE-754 widening of a binary32 bit pattern to the binary64 bit
pattern, mirroring static_cast of get_float to double.  The conversion
is exact for every float, including subnormals, infinities and NaNs. -/
def floatToDoubleBits (b : Nat) : Nat :=
  let b := b % 2 ^ 32
  let s := b / 2 ^ 31
  let e := (b / 2 ^ 23) % 2 ^ 8
  let m := b % 2 ^ 23
  if e = 255 then s * 2 ^ 63 + 2047 * 2 ^ 52 + m * 2 ^ 29
  else if e = 0 then
    if m = 0 then s * 2 ^ 63
    else
      let p := Nat.log2 m
      s * 2 ^ 63 + (p + 874) * 2 ^ 52 + (m - 2 ^ p) * 2 ^ (52 - p)
  else s * 2 ^ 63 + (e + 896) * 2 ^ 52 + m * 2 ^ 29

/-- One arm of the switch of parseValue (lines 113-138): given a field,
either the value assigned by a recognized value-bearing tag
(STRING=1, FLOAT=2, DOUBLE=3, INT=4, UINT=5, SINT=6, BOOL=7),
none when the default branch skips the field, or the error protozero
raises when the payload has the wrong wire type for the accessor. -/
def decodeTag (f : Nat × PBValue) : Except DecodeError (Option Value) :=
  match f with
  | (1, .str s) => .ok (some (.strVal s))
  | (1, _) => .error .wireTypeMismatch
  | (2, .fixed32 bits) => .ok (some (.doubleVal (floatToDoubleBits bits)))
  | (2, _) => .error .wireTypeMismatch
  | (3, .fixed64 bits) => .ok (some (.doubleVal bits))
  | (3, _) => .error .wireTypeMismatch
  | (4, .varint n) => .ok (some (.intVal (toInt64 n)))
  | (4, _) => .error .wireTypeMismatch
  | (5, .varint n) => .ok (some (.uintVal (toUInt64 n)))
  | (5, _) => .error .wireTypeMismatch
  | (6, .varint n) => .ok (some (.intVal (zigzag64 n)))
  | (6, _) => .error .wireTypeMismatch
  | (7, .varint n) => .ok (some (.boolVal (toUInt64 n ≠ 0)))
  | (7, _) => .error .wireTypeMismatch
  | (_, _) => .ok none

/-- The while loop of parseValue: value starts as null and every recognized
tag assigns it anew (the break in the source leaves the switch, not the
loop), so iteration continues to the end of the view. -/
def parseValueLoop : Value → List (Nat × PBValue) → Except DecodeError Value
  | v, [] => .ok v
  | v, f :: rest =>
    match decodeTag f with
    | .error e => .error e
    | .ok none => parseValueLoop v rest
    | .ok (some w) => parseValueLoop w rest

/-- parseValue (lines 108-141): scan all fields of a value view. -/
def parseValue (fields : List (Nat × PBValue)) : Except DecodeError Value :=
  parseValueLoop .null fields

/-- Association-list lookup returning the first binding of a key. -/
def alookup {α : Type} : List (String × α) → String → Option α
  | [], _ => none
  | (k, v) :: rest, q => if k = q then some v else alookup rest q

/-- The emplace operation of the std unique-key maps used by the source
(std::unordered_map for feature properties, std::map for the layer index):
emplace inserts only when the key is not present yet and never overwrites
an existing binding.  The model keeps bindings in insertion order; only
lookups are observable in the claims. -/
def emplaceAssoc {α : Type} (m : List (String × α)) (k : String) (v : α) :
    List (String × α) :=
  if (alookup m k).isSome then m else m ++ [(k, v)]

/-- The parts of a parsed layer the feature operations read: the shared key
table (wire order) and the shared value table (raw views, wire order). -/
structure Layer where
  keys : List String
  values : List (List (Nat × PBValue))

/-- The multimap from key name to key ordinal, built by the layer
constructor: the KEYS handler emplaces (string, keys.size()) as each key
string is appended, so the entries are exactly the key strings paired with
their ordinals; for one name the ordinals appear in increasing order, which
is what equal_range of the std::multimap yields. -/
def keysMapFrom (i : Nat) : List String → List (String × Nat)
  | [] => []
  | s :: rest => (s, i) :: keysMapFrom (i + 1) rest

/-- The keysMap member of the layer, derived from the key table. -/
def keysMapOf (l : Layer) : List (String × Nat) := keysMapFrom 0 l.keys

/-- The warning text of getValue for the duplicate-keys case. -/
def dupKeysWarning : String := "duplicate keys with different tag ids are found"

/-- The scan loop of feature::getValue (lines 182-209): walk the packed tag
pairs; a lone trailing key id raises; a pair whose value ordinal is out of
range raises; the first pair whose key ordinal equals the ordinal of any
entry of the equal_range for the requested name returns the parsed value,
together with the duplicate-keys warning when the name is registered more
than once.  The uint32 casts of the source locals tag_key and tag_val\nare inlined at each use. -/
def getValueLoop (l : Layer) (keyRange : List (String × Nat)) :
    List Nat → Except DecodeError (Value × Option String)
  | [] => .ok (.null, none)
  | [_] => .error .unevenTags
  | tk :: tv :: rest =>
    if l.values.length ≤ tv % 2 ^ 32 then .error .valueIndexOutOfRange
    else if keyRange.any (fun p => p.2 = tk % 2 ^ 32) then
      match parseValue ((l.values[tv % 2 ^ 32]?).getD []) with
      | .error e => .error e
      | .ok v =>
        .ok (v, if 1 < keyRange.length then some dupKeysWarning else none)
    else getValueLoop l keyRange rest

/-- feature::getValue (lines 172-212).  The warning out-parameter is
modelled as always supplied, surfacing as the optional second component. -/
def getValue (l : Layer) (tags : List Nat) (key : String) :
    Except DecodeError (Value × Option String) :=
  let keyRange := (keysMapOf l).filter (fun p => p.1 = key)
  if keyRange.length < 1 then .ok (.null, none)
  else getValueLoop l keyRange tags

/-- The loop of feature::getProperties (lines 221-228): walk the packed tag
pairs; a lone trailing key id raises; keys.at and values.at bound-check the
two ordinals; the decoded value is emplaced under the key string (emplace
keeps an existing binding).  The initial iter_len guard of the source only
skips the loop when the range is empty, which the empty case covers. -/
def getPropertiesLoop (l : Layer) :
    List Nat → List (String × Value) → Except DecodeError (List (String × Value))
  | [], m => .ok m
  | [_], _ => .error .unevenTags
  | tk :: tv :: rest, m =>
    match l.keys[tk % 2 ^ 32]? with
    | none => .error .keyIndexOutOfRange
    | some k =>
      match l.values[tv % 2 ^ 32]? with
      | none => .error .valueIndexOutOfRange
      | some vw =>
        match parseValue vw with
        | .error e => .error e
        | .ok v => getPropertiesLoop l rest (emplaceAssoc m k v)

/-- feature::getProperties (lines 214-231). -/
def getProperties (l : Layer) (tags : List Nat) :
    Except DecodeError (List (String × Value)) :=
  getPropertiesLoop l tags []

/-- A decoded vertex. -/
abbrev Pt := Int × Int

/-- The paths container under construction, split as (finished sub-sequences
in order, current sub-sequence).  The source always works on paths.back();
the finished collection is front ++ [back]. -/
abbrev PathsState := List (List Pt) × List Pt

/-- The ClosePath action (lines 340-344): append a copy of the first point
of the current sub-sequence, only when it is non-empty. -/
def closeOp (ps : PathsState) : PathsState :=
  match ps with
  | (f, []) => (f, [])
  | (f, q :: qs) => (f, (q :: qs) ++ [q])

/-- The MoveTo path switch (lines 308-320): when the current sub-sequence is
non-empty, finish it and open a new empty one.  In the source this branch is
taken for every geometry type (it is not guarded by is_point); only the
first-flag bookkeeping inside it is, and that bookkeeping merely drives
capacity reservation. -/
def moveNewOp (ps : PathsState) : PathsState :=
  if ps.2 = [] then ps else (ps.1 ++ [ps.2], [])

/-- The geometry type enum of the feature (TYPE field). -/
inductive GeomType where
  | unknown
  | point
  | linestring
  | polygon
  deriving DecidableEq

/-- One MoveTo/LineTo repetition (lines 292-339, without the reservation
bookkeeping): decode the two zig-zag parameter words into the running
cursor, open a new sub-sequence when a MoveTo finds the current one
non-empty, then project the cursor and append the vertex.  The projection
pr abstracts lines 324-339 of the source: scaling by the float scale,
roundf, and the range check against the coordinate type, returning none
exactly when the source raises the out-of-range error. -/
def emitStep (pr : Int → Int → Option Pt) (isMove : Bool) (x y : Int)
    (ps : PathsState) (dx dy : Nat) : Except DecodeError (Int × Int × PathsState) :=
  let x1 := x + zigzag32 dx
  let y1 := y + zigzag32 dy
  let ps1 := if isMove then moveNewOp ps else ps
  match pr x1 y1 with
  | none => .error .coordinateOutOfRange
  | some p => .ok (x1, y1, (ps1.1, ps1.2 ++ [p]))

/-- The command interpreter loop of getGeometries (lines 268-348), with the
pending repetition count len and current opcode cmd as explicit state,
exactly the state machine of the source:
an exhausted word list ends decoding; with len = 0 the next word is read as
a command word (cmd, count) and processing continues with that state, which
consumes the parameter words from the remaining list just as the iteration
of the source that read the command word does; a pending MoveTo/LineTo
repetition consumes its two zig-zag parameter words; a ClosePath executes
exactly once (its count is discarded: the source zeroes length), closing
the current path, after which the next word is a command word; any other
opcode raises.  Capacity reservation (len_reserve, its MAX_LENGTH clamp,
reserve and shrink_to_fit) only sizes allocations and never changes the
stored elements, so the model omits it.  When the source would read a
parameter word past the end of the packed range, protozero raises an
end-of-buffer error, modelled as truncatedParameters. -/
def decodeRun (pr : Int → Int → Option Pt) :
    Nat → Nat → Int → Int → PathsState → List Nat →
    Except DecodeError (List (List Pt))
  | _, _, _, _, ps, [] => .ok (ps.1 ++ [ps.2])
  | 1, len + 1, x, y, ps, dx :: ws =>
    -- a pending MoveTo repetition: dx and the next word are its parameters
    match ws with
    | [] => .error .truncatedParameters
    | dy :: rest =>
      match emitStep pr true x y ps dx dy with
      | .error e => .error e
      | .ok (x1, y1, ps1) => decodeRun pr 1 len x1 y1 ps1 rest
  | 2, len + 1, x, y, ps, dx :: ws =>
    -- a pending LineTo repetition: dx and the next word are its parameters
    match ws with
    | [] => .error .truncatedParameters
    | dy :: rest =>
      match emitStep pr false x y ps dx dy with
      | .error e => .error e
      | .ok (x1, y1, ps1) => decodeRun pr 2 len x1 y1 ps1 rest
  | 7, _ + 1, x, y, ps, w :: ws =>
    -- a pending ClosePath executes once and zeroes the count, after which
    -- w is read as the next command word (the source does this across two
    -- loop iterations; the state is unreachable from the entry state)
    let w32 := w % 2 ^ 32
    let c := w32 % 8
    let l := w32 / 8
    if c = 1 ∨ c = 2 then
      match l, ws with
      | _ + 1, [] => .error .truncatedParameters
      | _, _ => decodeRun pr c l x y (closeOp ps) ws
    else if c = 7 then decodeRun pr 7 0 x y (closeOp (closeOp ps)) ws
    else .error .unknownCommand
  | _, _ + 1, _, _, _, _ :: _ => .error .unknownCommand
  | _, 0, x, y, ps, w :: ws =>
    -- read w as a command word; a MoveTo/LineTo with its count (a zero
    -- count just advances, and a lone trailing parameter word raises on
    -- the read past the end), a ClosePath closes now, anything else raises
    let w32 := w % 2 ^ 32
    let c := w32 % 8
    let l := w32 / 8
    if c = 1 ∨ c = 2 then
      match l, ws with
      | _ + 1, [] => .error .truncatedParameters
      | _, _ => decodeRun pr c l x y ps ws
    else if c = 7 then decodeRun pr 7 0 x y (closeOp ps) ws
    else .error .unknownCommand
termination_by structural _ _ _ _ _ ws => ws

/-- feature::getGeometries (lines 245-362).  The geometry type parameter is
kept for the interface, but in the source it only selects which capacity
reservations happen (is_point, extra_coords, first), never which elements
are stored, so the decoded collection does not depend on it.  cmd starts
at 1, length at 0, the cursor at (0, 0), and paths holds one empty
sub-sequence. -/
def getGeometries (_t : GeomType) (pr : Int → Int → Option Pt)
    (words : List Nat) : Except DecodeError (List (List Pt)) :=
  decodeRun pr 1 0 0 0 ([], []) words

/-- The projection for an unbounded coordinate type at scale one: every
cursor position is representable, and rounding the unscaled cursor returns
it unchanged. -/
def prOne : Int → Int → Option Pt := fun x y => some (x, y)

/-- The NAME scan of the buffer constructor (lines 372-375): the
while(next(NAME)) loop keeps the last NAME field of the layer view.
A NAME field whose payload is not a string corresponds to a wire type the
string accessor rejects. -/
def layerNameScan : List (Nat × PBValue) → Option String → Except DecodeError (Option String)
  | [], acc => .ok acc
  | (1, .str s) :: rest, _ => layerNameScan rest (some s)
  | (1, _) :: _, _ => .error .wireTypeMismatch
  | _ :: rest, acc => layerNameScan rest acc

/-- The loop of buffer::buffer (lines 367-380): next(LAYERS) visits exactly
the fields with tag 3; each layer view is scanned for its name and then
emplaced into the std::map index (emplace keeps the first binding of a
name).  A layer without a NAME field raises. -/
def bufferLoop : List (Nat × PBValue) → List (String × List (Nat × PBValue)) →
    Except DecodeError (List (String × List (Nat × PBValue)))
  | [], m => .ok m
  | (3, .msg fs) :: rest, m =>
    match layerNameScan fs none with
    | .error e => .error e
    | .ok none => .error .missingLayerName
    | .ok (some name) => bufferLoop rest (emplaceAssoc m name fs)
  | (3, _) :: _, _ => .error .wireTypeMismatch
  | _ :: rest, m => bufferLoop rest m

/-- The name-to-view index a buffer records for a tile message. -/
def bufferLayers (tile : List (Nat × PBValue)) :
    Except DecodeError (List (String × List (Nat × PBValue))) :=
  bufferLoop tile []

/-- True when the value parser consumes the field without raising: the field
is either skipped or a value-bearing tag with the matching wire type. -/
def valueFieldOk (f : Nat × PBValue) : Bool :=
  match decodeTag f with
  | .ok _ => true
  | .error _ => false

/-- Written after the wording of the specification for the value parser,
adjusted to the direction the code implements: the decoded payload of the
last value-bearing tag of the view, null when none is present. -/
def lastTagValue (fields : List (Nat × PBValue)) : Value :=
  fields.foldl
    (fun acc f =>
      match decodeTag f with
      | .ok (some v) => v
      | _ => acc)
    .null

/-- Written after the wording of the specification for property enumeration:
the value view referenced by the first tag pair whose key name is the
requested one (none when no pair refers to that name). -/
def firstKeyView (l : Layer) (k : String) : List Nat → Option (List (Nat × PBValue))
  | tk :: tv :: rest =>
    if l.keys[tk % 2 ^ 32]? = some k then l.values[tv % 2 ^ 32]?
    else firstKeyView l k rest
  | _ => none

/-- The packed encoding of a list of (key ordinal, value ordinal) tag pairs,
used to state claims about well-paired tag streams. -/
def flattenPairs : List (Nat × Nat) → List Nat
  | [] => []
  | (a, b) :: r => a :: b :: flattenPairs r

theorem alookup_append_of_some {α : Type} {m : List (String × α)} {k : String}
    {v : α} (m2 : List (String × α)) (h : alookup m k = some v) :
    alookup (m ++ m2) k = some v := by
  induction m with
  | nil => simp [alookup] at h
  | cons p rest ih =>
    cases p with
    | mk k0 v0 =>
      by_cases hk : k0 = k
      · simp [alookup, hk] at h ⊢
        exact h
      · simp [alookup, hk] at h ⊢
        exact ih h

theorem alookup_append_of_none {α : Type} {m : List (String × α)} {k : String}
    (m2 : List (String × α)) (h : alookup m k = none) :
    alookup (m ++ m2) k = alookup m2 k := by
  induction m with
  | nil => simp [alookup]
  | cons p rest ih =>
    cases p with
    | mk k0 v0 =>
      by_cases hk : k0 = k
      · simp [alookup, hk] at h
      · simp [alookup, hk] at h ⊢
        exact ih h

theorem alookup_emplace_preserved {α : Type} {m : List (String × α)} {k : String}
    {v : α} (k0 : String) (v0 : α) (h : alookup m k = some v) :
    alookup (emplaceAssoc m k0 v0) k = some v := by
  unfold emplaceAssoc
  split
  · exact h
  · exact alookup_append_of_some _ h

theorem alookup_emplace_other {α : Type} {m : List (String × α)} {k k0 : String}
    (v0 : α) (hne : k0 ≠ k) :
    alookup (emplaceAssoc m k0 v0) k = alookup m k := by
  unfold emplaceAssoc
  split
  · rfl
  · cases hm : alookup m k with
    | some v => exact alookup_append_of_some _ hm
    | none =>
      rw [alookup_append_of_none _ hm]
      simp [alookup, hne]

theorem alookup_emplace_new {α : Type} {m : List (String × α)} {k : String}
    {v : α} (h : alookup m k = none) :
    alookup (emplaceAssoc m k v) k = some v := by
  unfold emplaceAssoc
  rw [h]
  simp
  rw [alookup_append_of_none _ h]
  simp [alookup]

theorem parseValueLoop_foldl (fields : List (Nat × PBValue)) :
    ∀ acc : Value, (∀ f ∈ fields, valueFieldOk f = true) →
    parseValueLoop acc fields =
      .ok (fields.foldl
        (fun acc f =>
          match decodeTag f with
          | .ok (some v) => v
          | _ => acc) acc) := by
  induction fields with
  | nil => intro acc _; rfl
  | cons f rest ih =>
    intro acc h
    have hf : valueFieldOk f = true := h f (List.mem_cons_self f rest)
    have hrest : ∀ g ∈ rest, valueFieldOk g = true := fun g hg =>
      h g (List.mem_cons_of_mem f hg)
    unfold valueFieldOk at hf
    unfold parseValueLoop
    cases hd : decodeTag f with
    | error e => rw [hd] at hf; exact Bool.noConfusion hf
    | ok r =>
      cases r with
      | none => simp [List.foldl_cons, hd, ih _ hrest]
      | some w => simp [List.foldl_cons, hd, ih _ hrest]

/-- C2 (counterexample): on a value view carrying a STRING field followed by
a BOOL field, the value parser returns the boolean payload of the last
value-bearing tag, not the string payload of the first one claimed. -/
theorem c2_counterexample :
    parseValue [(1, PBValue.str "a"), (7, PBValue.varint 1)] =
      Except.ok (Value.boolVal true) ∧
    parseValue [(1, PBValue.str "a"), (7, PBValue.varint 1)] ≠
      Except.ok (Value.strVal "a") := by
  constructor
  · rfl
  · intro h
    rw [show parseValue [(1, PBValue.str "a"), (7, PBValue.varint 1)] =
      Except.ok (Value.boolVal true) from rfl] at h
    simp at h

/-- C2 (amended): for every value view all of whose fields the parser
consumes without raising, parseValue returns the decoded payload of the
LAST value-bearing tag encountered while iterating the fields (each
recognized tag overwrites the previous assignment), and Null when the view
contains no value-bearing tag. -/
theorem c2_amended (fields : List (Nat × PBValue))
    (h : ∀ f ∈ fields, valueFieldOk f = true) :
    parseValue fields = .ok (lastTagValue fields) :=
  parseValueLoop_foldl fields .null h

/-- Witness for c2_amended at a concrete view: STRING then BOOL, the BOOL
payload wins. -/
theorem c2_amended_witness :
    (∀ f ∈ [((1 : Nat), PBValue.str "a"), (7, PBValue.varint 1)], valueFieldOk f = true) ∧
    parseValue [(1, PBValue.str "a"), (7, PBValue.varint 1)] =
      .ok (lastTagValue [(1, PBValue.str "a"), (7, PBValue.varint 1)]) :=
  ⟨by decide, c2_amended [(1, PBValue.str "a"), (7, PBValue.varint 1)] (by decide)⟩

/-- C1 (counterexample): a Point feature whose geometry is one MoveTo
command of count 2 decodes to two sub-sequences of one point each, not to
one sub-sequence containing both points. -/
theorem c1_counterexample :
    (getGeometries GeomType.point prOne [17, 0, 0, 2, 2]).map List.length =
      Except.ok 2 ∧
    (getGeometries GeomType.point prOne [17, 0, 0, 2, 2]).map List.length ≠
      Except.ok 1 := by
  constructor
  · rfl
  · intro h
    rw [show (getGeometries GeomType.point prOne [17, 0, 0, 2, 2]).map List.length =
      Except.ok 2 from rfl] at h
    simp at h

/-- C5 (counterexample): a ClosePath command word with count 0 (the word 7)
is not a no-op: on a polygon whose current path is non-empty it appends the
closing point, so the decode differs from the decode without that word. -/
theorem c5_counterexample :
    getGeometries GeomType.polygon prOne [9, 2, 2, 7] =
      Except.ok [[((1 : Int), (1 : Int)), (1, 1)]] ∧
    getGeometries GeomType.polygon prOne [9, 2, 2, 7] ≠
      getGeometries GeomType.polygon prOne [9, 2, 2] := by
  constructor
  · rfl
  · intro h
    rw [show getGeometries GeomType.polygon prOne [9, 2, 2, 7] =
      Except.ok [[((1 : Int), (1 : Int)), (1, 1)]] from rfl] at h
    rw [show getGeometries GeomType.polygon prOne [9, 2, 2] =
      Except.ok [[((1 : Int), (1 : Int))]] from rfl] at h
    simp at h

/-- C7 (counterexample): a polygon stream MoveTo (1,1), ClosePath, then
LineTo (3,3) decodes without error to a single emitted path in which a
ClosePath executed on a non-empty path, yet the last point of the path
differs from its first point. -/
theorem c7_counterexample :
    getGeometries GeomType.polygon prOne [9, 2, 2, 15, 10, 4, 4] =
      Except.ok [[((1 : Int), (1 : Int)), (1, 1), (3, 3)]] ∧
    ([((1 : Int), (1 : Int)), (1, 1), (3, 3)] : List Pt).head? ≠
      ([((1 : Int), (1 : Int)), (1, 1), (3, 3)] : List Pt).getLast? := by
  constructor
  · rfl
  · decide

/-- C3: a tile with two LAYERS sub-messages both named a records the view
of the FIRST one (std::map emplace does not overwrite), contradicting the
last-write-wins rule of the specification; the two duplicate views differ,
so the recorded view is observably the wrong one. -/
theorem c3_first_wins :
    bufferLayers [(3, PBValue.msg [(1, PBValue.str "a"), (15, PBValue.varint 2)]),
      (3, PBValue.msg [(1, PBValue.str "a"), (15, PBValue.varint 3)])] =
      Except.ok [("a", [(1, PBValue.str "a"), (15, PBValue.varint 2)])] ∧
    ([(1, PBValue.str "a"), (15, PBValue.varint 2)] : List (Nat × PBValue)) ≠
      [(1, PBValue.str "a"), (15, PBValue.varint 3)] :=
  ⟨rfl, by simp⟩

/-- C4 (counterexample): with one key k and two tag pairs both naming k,
properties keeps the value of the EARLIER pair (emplace does not
overwrite), not the later one claimed. -/
theorem c4_counterexample :
    getProperties ⟨["k"], [[(1, PBValue.str "a")], [(1, PBValue.str "b")]]⟩
        [0, 0, 0, 1] = Except.ok [("k", Value.strVal "a")] ∧
    alookup [("k", Value.strVal "a")] "k" ≠ some (Value.strVal "b") := by
  constructor
  · rfl
  · decide

/-- C7 (amended): when ClosePath executes on a non-empty current path it
appends a copy of the first point of that path, so immediately afterwards
the last point of the path equals its first point and the finished paths
are untouched; an emitted path keeps this shape only if no later command
appends to it. -/
theorem c7_amended (f : List (List Pt)) (b : List Pt) (hb : b ≠ []) :
    (closeOp (f, b)).1 = f ∧
    ((closeOp (f, b)).2).head? = b.head? ∧
    ((closeOp (f, b)).2).getLast? = b.head? := by
  cases b with
  | nil => exact absurd rfl hb
  | cons q qs =>
    refine ⟨rfl, rfl, ?_⟩
    show (q :: (qs ++ [q])).getLast? = some q
    rw [← List.cons_append, List.getLast?_concat]

/-- Witness for c7_amended on the one-point path. -/
theorem c7_amended_witness :
    (([((1 : Int), (1 : Int))] : List Pt) ≠ []) ∧
    ((closeOp ([], [((1 : Int), (1 : Int))])).1 = [] ∧
      ((closeOp ([], [((1 : Int), (1 : Int))])).2).head? =
        ([((1 : Int), (1 : Int))] : List Pt).head? ∧
      ((closeOp ([], [((1 : Int), (1 : Int))])).2).getLast? =
        ([((1 : Int), (1 : Int))] : List Pt).head?) :=
  ⟨by decide, c7_amended [] [((1 : Int), (1 : Int))] (by decide)⟩

theorem decodeRun_len0_cmd (pr : Int → Int → Option Pt) (cmd cmd2 : Nat)
    (x y : Int) (ps : PathsState) (ws : List Nat) :
    decodeRun pr cmd 0 x y ps ws = decodeRun pr cmd2 0 x y ps ws := by
  cases ws with
  | nil => rw [decodeRun.eq_1, decodeRun.eq_1]
  | cons w tail =>
    cases tail with
    | cons t ts =>
      rw [decodeRun.eq_10 pr cmd x y ps w (t :: ts)
            (by intro n _ h; exact List.noConfusion h),
          decodeRun.eq_10 pr cmd2 x y ps w (t :: ts)
            (by intro n _ h; exact List.noConfusion h)]
    | nil =>
      cases hl : w % 2 ^ 32 / 8 with
      | zero =>
        rw [decodeRun.eq_10 pr cmd x y ps w []
              (by intro n h _; rw [hl] at h; exact Nat.noConfusion h),
            decodeRun.eq_10 pr cmd2 x y ps w []
              (by intro n h _; rw [hl] at h; exact Nat.noConfusion h)]
      | succ n =>
        rw [decodeRun.eq_9 pr cmd x y ps w n hl,
            decodeRun.eq_9 pr cmd2 x y ps w n hl]

/-- C5 (amended): a MoveTo or LineTo command word with count 0 is a no-op:
the decoder advances past it with state unchanged.  A ClosePath command
word executes exactly once whatever its count, so with count 0 (the word 7)
it still performs the close on the current path. -/
theorem c5_amended (pr : Int → Int → Option Pt) (cmd : Nat) (x y : Int)
    (ps : PathsState) (ws : List Nat) (c : Nat) (hc : c = 1 ∨ c = 2) :
    decodeRun pr cmd 0 x y ps (c :: ws) = decodeRun pr cmd 0 x y ps ws ∧
    decodeRun pr cmd 0 x y ps (7 :: ws) =
      decodeRun pr cmd 0 x y (closeOp ps) ws := by
  constructor
  · cases hc with
    | inl h =>
      subst h
      rw [decodeRun.eq_10 pr cmd x y ps 1 ws (by intro n h _; norm_num at h)]
      norm_num
      exact decodeRun_len0_cmd pr 1 cmd x y ps ws
    | inr h =>
      subst h
      rw [decodeRun.eq_10 pr cmd x y ps 2 ws (by intro n h _; norm_num at h)]
      norm_num
      exact decodeRun_len0_cmd pr 2 cmd x y ps ws
  · rw [decodeRun.eq_10 pr cmd x y ps 7 ws (by intro n h _; norm_num at h)]
    norm_num
    exact decodeRun_len0_cmd pr 7 cmd x y (closeOp ps) ws

theorem decodeRun_ok_pos (pr : Int → Int → Option Pt) (cmd len : Nat) (x y : Int)
    (ps : PathsState) (ws : List Nat) :
    ∀ r : List (List Pt), decodeRun pr cmd len x y ps ws = Except.ok r → 0 < r.length := by
  induction cmd, len, x, y, ps, ws using decodeRun.induct pr with
  | case1 cmd len x y ps =>
    intro r h
    rw [decodeRun.eq_1] at h
    injection h with h
    subst h
    simp
  | case2 len x y ps dx =>
    intro r h
    rw [decodeRun.eq_2] at h
    exact Except.noConfusion h
  | case3 len x y ps dx dy rest e he =>
    intro r h
    rw [decodeRun.eq_3] at h
    rw [he] at h
    exact Except.noConfusion h
  | case4 len x y ps dx dy rest x1 y1 ps1 he ih =>
    intro r h
    rw [decodeRun.eq_3] at h
    rw [he] at h
    exact ih r h
  | case5 len x y ps dx =>
    intro r h
    rw [decodeRun.eq_4] at h
    exact Except.noConfusion h
  | case6 len x y ps dx dy rest e he =>
    intro r h
    rw [decodeRun.eq_5] at h
    rw [he] at h
    exact Except.noConfusion h
  | case7 len x y ps dx dy rest x1 y1 ps1 he ih =>
    intro r h
    rw [decodeRun.eq_5] at h
    rw [he] at h
    exact ih r h
  | case8 n x y ps w w32 c l hc n1 hl =>
    intro r h
    rw [decodeRun.eq_6 pr x y ps n w n1 hl] at h
    rw [if_pos hc] at h
    exact Except.noConfusion h
  | case9 n x y ps w ws w32 c l hc hside ih =>
    intro r h
    rw [decodeRun.eq_7 pr x y ps n w ws hside] at h
    rw [if_pos hc] at h
    exact ih r h
  | case10 n x y ps w ws w32 c hnc hc7 ih =>
    intro r h
    cases ws with
    | nil =>
      cases hl : w % 2 ^ 32 / 8 with
      | zero =>
        rw [decodeRun.eq_7 pr x y ps n w []
          (by intro m hm _; rw [hl] at hm; exact Nat.noConfusion hm)] at h
        rw [if_neg hnc, if_pos hc7] at h
        exact ih r h
      | succ m =>
        rw [decodeRun.eq_6 pr x y ps n w m hl] at h
        rw [if_neg hnc, if_pos hc7] at h
        exact ih r h
    | cons t ts =>
      rw [decodeRun.eq_7 pr x y ps n w (t :: ts)
        (by intro m _ hm; exact List.noConfusion hm)] at h
      rw [if_neg hnc, if_pos hc7] at h
      exact ih r h
  | case11 n x y ps w ws w32 c hnc hn7 =>
    intro r h
    cases ws with
    | nil =>
      cases hl : w % 2 ^ 32 / 8 with
      | zero =>
        rw [decodeRun.eq_7 pr x y ps n w []
          (by intro m hm _; rw [hl] at hm; exact Nat.noConfusion hm)] at h
        rw [if_neg hnc, if_neg hn7] at h
        exact Except.noConfusion h
      | succ m =>
        rw [decodeRun.eq_6 pr x y ps n w m hl] at h
        rw [if_neg hnc, if_neg hn7] at h
        exact Except.noConfusion h
    | cons t ts =>
      rw [decodeRun.eq_7 pr x y ps n w (t :: ts)
        (by intro m _ hm; exact List.noConfusion hm)] at h
      rw [if_neg hnc, if_neg hn7] at h
      exact Except.noConfusion h
  | case12 cmd n x1 x2 ps w ws h1 h2 h7 =>
    intro r h
    rw [decodeRun.eq_8 pr cmd x1 x2 ps n w ws h1 h2 h7] at h
    exact Except.noConfusion h
  | case13 cmd x y ps w w32 c l hc n1 hl =>
    intro r h
    rw [decodeRun.eq_9 pr cmd x y ps w n1 hl] at h
    rw [if_pos hc] at h
    exact Except.noConfusion h
  | case14 cmd x y ps w ws w32 c l hc hside ih =>
    intro r h
    rw [decodeRun.eq_10 pr cmd x y ps w ws hside] at h
    rw [if_pos hc] at h
    exact ih r h
  | case15 cmd x y ps w ws w32 c hnc hc7 ih =>
    intro r h
    cases ws with
    | nil =>
      cases hl : w % 2 ^ 32 / 8 with
      | zero =>
        rw [decodeRun.eq_10 pr cmd x y ps w []
          (by intro m hm _; rw [hl] at hm; exact Nat.noConfusion hm)] at h
        rw [if_neg hnc, if_pos hc7] at h
        exact ih r h
      | succ m =>
        rw [decodeRun.eq_9 pr cmd x y ps w m hl] at h
        rw [if_neg hnc, if_pos hc7] at h
        exact ih r h
    | cons t ts =>
      rw [decodeRun.eq_10 pr cmd x y ps w (t :: ts)
        (by intro m _ hm; exact List.noConfusion hm)] at h
      rw [if_neg hnc, if_pos hc7] at h
      exact ih r h
  | case16 cmd x y ps w ws w32 c hnc hn7 =>
    intro r h
    cases ws with
    | nil =>
      cases hl : w % 2 ^ 32 / 8 with
      | zero =>
        rw [decodeRun.eq_10 pr cmd x y ps w []
          (by intro m hm _; rw [hl] at hm; exact Nat.noConfusion hm)] at h
        rw [if_neg hnc, if_neg hn7] at h
        exact Except.noConfusion h
      | succ m =>
        rw [decodeRun.eq_9 pr cmd x y ps w m hl] at h
        rw [if_neg hnc, if_neg hn7] at h
        exact Except.noConfusion h
    | cons t ts =>
      rw [decodeRun.eq_10 pr cmd x y ps w (t :: ts)
        (by intro m _ hm; exact List.noConfusion hm)] at h
      rw [if_neg hnc, if_neg hn7] at h
      exact Except.noConfusion h

/-- Pending MoveTo repetitions on a non-empty current sub-sequence each
open a fresh singleton sub-sequence. -/
theorem decodeRun_point_tail (pr : Int → Int → Option Pt)
    (hpr : ∀ a b : Int, (pr a b).isSome = true) :
    ∀ (k : Nat) (params : List Nat) (x y : Int) (f : List (List Pt)) (b : List Pt),
      params.length = 2 * k → b ≠ [] →
      ∃ tail, decodeRun pr 1 k x y (f, b) params = .ok (f ++ b :: tail) ∧
        tail.length = k ∧ ∀ p ∈ tail, p.length = 1 := by
  intro k
  induction k with
  | zero =>
    intro params x y f b hlen hb
    have hnil : params = [] := List.eq_nil_of_length_eq_zero (by omega)
    subst hnil
    refine ⟨[], ?_, rfl, by simp⟩
    rw [decodeRun.eq_1]
  | succ k ih =>
    intro params x y f b hlen hb
    cases params with
    | nil => simp at hlen
    | cons dx ps2 =>
      cases ps2 with
      | nil => simp at hlen; omega
      | cons dy rest =>
        obtain ⟨p, hp⟩ := Option.isSome_iff_exists.mp
          (hpr (x + zigzag32 dx) (y + zigzag32 dy))
        have he : emitStep pr true x y (f, b) dx dy =
            .ok (x + zigzag32 dx, y + zigzag32 dy, (f ++ [b], [p])) := by
          simp [emitStep, moveNewOp, hb, hp]
        rw [decodeRun.eq_3, he]
        have hrl : rest.length = 2 * k := by simp at hlen; omega
        obtain ⟨tail, htl, hlen2, hsing⟩ :=
          ih rest (x + zigzag32 dx) (y + zigzag32 dy) (f ++ [b]) [p] hrl (by simp)
        refine ⟨[p] :: tail, ?_, by simp [hlen2], ?_⟩
        · simp [htl, List.append_assoc]
        · intro q hq
          cases hq with
          | head => rfl
          | tail _ hq2 => exact hsing q hq2

/-- C1 (amended): for a Point feature the decoder does not accumulate the
points of a MoveTo into one sequence: every repetition after the first
finds the current sub-sequence non-empty and opens a new one, so a single
MoveTo command word of count n followed by its 2n parameter words (with
every projected vertex in range) decodes to exactly n sub-sequences of one
point each. -/
theorem c1_amended (pr : Int → Int → Option Pt) (n : Nat) (params : List Nat)
    (hn : 0 < n) (hn2 : n < 2 ^ 29) (hlen : params.length = 2 * n)
    (hpr : ∀ a b : Int, (pr a b).isSome = true) :
    ∃ r, getGeometries GeomType.point pr ((8 * n + 1) :: params) = Except.ok r ∧
      r.length = n ∧ ∀ p ∈ r, p.length = 1 := by
  have p32 : (2 : Nat) ^ 32 = 4294967296 := by norm_num
  have p29 : (2 : Nat) ^ 29 = 536870912 := by norm_num
  unfold getGeometries
  cases params with
  | nil => simp at hlen; omega
  | cons t ts =>
    rw [decodeRun.eq_10 pr 1 0 0 ([], []) (8 * n + 1) (t :: ts)
      (by intro m _ hm; exact List.noConfusion hm)]
    have h32 : (8 * n + 1) % 2 ^ 32 = 8 * n + 1 := by
      apply Nat.mod_eq_of_lt
      omega
    have hc : (8 * n + 1) % 2 ^ 32 % 8 = 1 := by rw [h32]; omega
    have hl : (8 * n + 1) % 2 ^ 32 / 8 = n := by rw [h32]; omega
    rw [hc, hl, if_pos (Or.inl rfl)]
    obtain ⟨m, rfl⟩ : ∃ m, n = m + 1 := ⟨n - 1, by omega⟩
    cases ts with
    | nil => simp at hlen; omega
    | cons dy rest =>
      obtain ⟨p, hp⟩ := Option.isSome_iff_exists.mp
        (hpr (zigzag32 t) (zigzag32 dy))
      have he : emitStep pr true 0 0 ([], []) t dy =
          .ok (zigzag32 t, zigzag32 dy, ([], [p])) := by
        simp [emitStep, moveNewOp, hp]
      rw [decodeRun.eq_3, he]
      have hrl : rest.length = 2 * m := by simp at hlen; omega
      obtain ⟨tail, htl, hlen2, hsing⟩ :=
        decodeRun_point_tail pr hpr m rest (zigzag32 t) (zigzag32 dy)
          [] [p] hrl (by simp)
      refine ⟨[p] :: tail, ?_, by simp [hlen2], ?_⟩
      · simp [htl]
      · intro q hq
        cases hq with
        | head => rfl
        | tail _ hq2 => exact hsing q hq2

/-- Witness for c1_amended: MoveTo of count 2 at (0,0) then (1,1). -/
theorem c1_amended_witness :
    ((0 < 2 ∧ 2 < 2 ^ 29 ∧ ([0, 0, 2, 2] : List Nat).length = 2 * 2) ∧
      ∀ a b : Int, (prOne a b).isSome = true) ∧
    ∃ r, getGeometries GeomType.point prOne ((8 * 2 + 1) :: [0, 0, 2, 2]) =
        Except.ok r ∧ r.length = 2 ∧ ∀ p ∈ r, p.length = 1 :=
  ⟨⟨by decide, fun a b => rfl⟩,
    c1_amended prOne 2 [0, 0, 2, 2] (by decide) (by decide) (by decide)
      (fun a b => rfl)⟩

/-- C10: for every geometry type, projection and word list on which
getGeometries succeeds, the returned collection holds at least one point
sequence; in particular the empty word list (an absent or empty geometry
stream) yields exactly one empty point sequence, not an empty collection. -/
theorem c10_nonempty (t : GeomType) (pr : Int → Int → Option Pt)
    (ws : List Nat) (r : List (List Pt))
    (h : getGeometries t pr ws = Except.ok r) :
    1 ≤ r.length ∧ getGeometries t pr [] = Except.ok [[]] :=
  ⟨decodeRun_ok_pos pr 1 0 0 0 ([], []) ws r h, rfl⟩

/-- Witness for c10_nonempty at the one-point stream. -/
theorem c10_nonempty_witness :
    getGeometries GeomType.point prOne [9, 50, 34] =
      Except.ok [[((25 : Int), (17 : Int))]] ∧
    (1 ≤ ([[((25 : Int), (17 : Int))]] : List (List Pt)).length ∧
      getGeometries GeomType.point prOne [] = Except.ok [[]]) :=
  ⟨rfl, c10_nonempty GeomType.point prOne [9, 50, 34] [[(25, 17)]] rfl⟩

/-- Witness for c5_amended: a count-0 MoveTo word before an empty stream. -/
theorem c5_amended_witness :
    ((1 : Nat) = 1 ∨ (1 : Nat) = 2) ∧
    (decodeRun prOne 1 0 0 0 ([], []) [1] = decodeRun prOne 1 0 0 0 ([], []) [] ∧
      decodeRun prOne 1 0 0 0 ([], []) [7] =
        decodeRun prOne 1 0 0 0 (closeOp ([], [])) []) :=
  ⟨Or.inl rfl, c5_amended prOne 1 0 0 ([], []) [] 1 (Or.inl rfl)⟩

theorem getPropertiesLoop_preserved (l : Layer) :
    ∀ (tags : List Nat) (m0 m : List (String × Value)) (k : String) (v : Value),
      alookup m0 k = some v → getPropertiesLoop l tags m0 = Except.ok m →
      alookup m k = some v
  | [], m0, m, k, v, h1, h2 => by
    unfold getPropertiesLoop at h2
    injection h2 with h2
    subst h2
    exact h1
  | [_], m0, m, k, v, h1, h2 => by
    unfold getPropertiesLoop at h2
    exact Except.noConfusion h2
  | tk :: tv :: rest, m0, m, k, v, h1, h2 => by
    unfold getPropertiesLoop at h2
    cases hkk : l.keys[tk % 2 ^ 32]? with
    | none => simp only [hkk] at h2; exact Except.noConfusion h2
    | some k0 =>
      cases hvv : l.values[tv % 2 ^ 32]? with
      | none => simp only [hkk, hvv] at h2; exact Except.noConfusion h2
      | some vw =>
        cases hpp : parseValue vw with
        | error e => simp only [hkk, hvv, hpp] at h2; exact Except.noConfusion h2
        | ok v0 =>
          simp only [hkk, hvv, hpp] at h2
          exact getPropertiesLoop_preserved l rest (emplaceAssoc m0 k0 v0) m k v
            (alookup_emplace_preserved k0 v0 h1) h2

theorem getPropertiesLoop_first (l : Layer) (k : String) :
    ∀ (tags : List Nat) (m0 m : List (String × Value)) (v : Value),
      alookup m0 k = none → getPropertiesLoop l tags m0 = Except.ok m →
      alookup m k = some v →
      ∃ vw, firstKeyView l k tags = some vw ∧ parseValue vw = Except.ok v
  | [], m0, m, v, h0, h2, hk => by
    unfold getPropertiesLoop at h2
    injection h2 with h2
    subst h2
    rw [h0] at hk
    exact Option.noConfusion hk
  | [_], m0, m, v, h0, h2, hk => by
    unfold getPropertiesLoop at h2
    exact Except.noConfusion h2
  | tk :: tv :: rest, m0, m, v, h0, h2, hk => by
    unfold getPropertiesLoop at h2
    cases hkk : l.keys[tk % 2 ^ 32]? with
    | none => simp only [hkk] at h2; exact Except.noConfusion h2
    | some k0 =>
      cases hvv : l.values[tv % 2 ^ 32]? with
      | none => simp only [hkk, hvv] at h2; exact Except.noConfusion h2
      | some vw =>
        cases hpp : parseValue vw with
        | error e => simp only [hkk, hvv, hpp] at h2; exact Except.noConfusion h2
        | ok v0 =>
          simp only [hkk, hvv, hpp] at h2
          by_cases hek : k0 = k
          · subst hek
            have h1 : alookup (emplaceAssoc m0 k0 v0) k0 = some v0 :=
              alookup_emplace_new h0
            have h3 : alookup m k0 = some v0 :=
              getPropertiesLoop_preserved l rest _ m k0 v0 h1 h2
            obtain rfl : v0 = v := by
              rw [hk] at h3
              exact (Option.some.inj h3).symm
            refine ⟨vw, ?_, hpp⟩
            unfold firstKeyView
            rw [hkk, if_pos rfl]
            exact hvv
          · have h0b : alookup (emplaceAssoc m0 k0 v0) k = none := by
              rw [alookup_emplace_other v0 hek]
              exact h0
            obtain ⟨vw2, hfk, hpv⟩ :=
              getPropertiesLoop_first l k rest _ m v h0b h2 hk
            refine ⟨vw2, ?_, hpv⟩
            unfold firstKeyView
            rw [hkk, if_neg (by simp [hek]), hfk]

/-- C4 (amended): when the tag stream decodes without error, the value the
property map assigns to a key name is the parsed value referenced by the
EARLIEST tag pair in stream order bearing that name: later pairs with the
same name do not overwrite it (emplace keeps the existing binding). -/
theorem c4_amended (l : Layer) (tags : List Nat) (m : List (String × Value))
    (k : String) (v : Value) (h : getProperties l tags = Except.ok m)
    (hk : alookup m k = some v) :
    ∃ vw, firstKeyView l k tags = some vw ∧ parseValue vw = Except.ok v :=
  getPropertiesLoop_first l k tags [] m v rfl h hk

/-- Witness for c4_amended on the duplicate-key layer: the earliest pair
wins. -/
theorem c4_amended_witness :
    (getProperties ⟨["k"], [[(1, PBValue.str "a")], [(1, PBValue.str "b")]]⟩
        [0, 0, 0, 1] = Except.ok [("k", Value.strVal "a")] ∧
      alookup [("k", Value.strVal "a")] "k" = some (Value.strVal "a")) ∧
    ∃ vw, firstKeyView ⟨["k"], [[(1, PBValue.str "a")], [(1, PBValue.str "b")]]⟩
        "k" [0, 0, 0, 1] = some vw ∧ parseValue vw = Except.ok (Value.strVal "a") :=
  ⟨⟨rfl, by decide⟩,
    c4_amended ⟨["k"], [[(1, PBValue.str "a")], [(1, PBValue.str "b")]]⟩
      [0, 0, 0, 1] [("k", Value.strVal "a")] "k" (Value.strVal "a") rfl (by decide)⟩


theorem mem_keysMapFrom (k : String) :
    ∀ (ks : List String) (i : Nat) (j : Nat),
      ((k, j) ∈ keysMapFrom i ks) ↔ ∃ t, j = i + t ∧ ks[t]? = some k := by
  intro ks
  induction ks with
  | nil =>
    intro i j
    simp [keysMapFrom]
  | cons s rest ih =>
    intro i j
    unfold keysMapFrom
    rw [List.mem_cons]
    constructor
    · intro h
      cases h with
      | inl h =>
        obtain ⟨hk, hj⟩ := Prod.mk.injEq .. ▸ h
        exact ⟨0, by omega, by simp [hk.symm]⟩
      | inr h =>
        obtain ⟨t, ht, hget⟩ := (ih (i + 1) j).mp h
        exact ⟨t + 1, by omega, by simpa using hget⟩
    · rintro ⟨t, ht, hget⟩
      cases t with
      | zero =>
        left
        simp at hget
        simp [hget, ht]
      | succ t2 =>
        right
        refine (ih (i + 1) j).mpr ⟨t2, by omega, by simpa using hget⟩

theorem keyRange_any (l : Layer) (k : String) (j : Nat) :
    (((keysMapOf l).filter (fun p => p.1 = k)).any (fun p => p.2 = j)) = true ↔
      l.keys[j]? = some k := by
  rw [List.any_eq_true]
  constructor
  · rintro ⟨q, hq, hpq⟩
    rw [List.mem_filter] at hq
    obtain ⟨hqm, hq1⟩ := hq
    have hq1b : q.1 = k := by simpa using hq1
    have hpqb : q.2 = j := by simpa using hpq
    obtain ⟨t, ht, hget⟩ := (mem_keysMapFrom k l.keys 0 q.2).mp (by
      have : q = (k, q.2) := by
        cases q
        simp at hq1b hpqb ⊢
        exact hq1b
      exact this ▸ hqm)
    have htj : t = j := by omega
    subst htj
    exact hget
  · intro hg
    refine ⟨(k, j), List.mem_filter.mpr ⟨?_, by simp⟩, by simp⟩
    exact (mem_keysMapFrom k l.keys 0 j).mpr ⟨j, by omega, hg⟩

theorem keysMapFrom_filter_nil (k : String) :
    ∀ (ks : List String) (i : Nat), k ∉ ks →
      (keysMapFrom i ks).filter (fun p => p.1 = k) = [] := by
  intro ks
  induction ks with
  | nil => intro i _; rfl
  | cons s rest ih =>
    intro i hmem
    unfold keysMapFrom
    rw [List.filter_cons]
    have hs : ¬ (s = k) := fun h => hmem (by simp [h])
    simp only [hs]
    simpa using ih (i + 1) (fun h => hmem (List.mem_cons_of_mem s h))

theorem keyRange_len_le_one (l : Layer) (k : String) (hnd : l.keys.Nodup) :
    ((keysMapOf l).filter (fun p => p.1 = k)).length ≤ 1 := by
  unfold keysMapOf
  suffices h : ∀ (ks : List String) (i : Nat), ks.Nodup →
      ((keysMapFrom i ks).filter (fun p => p.1 = k)).length ≤ 1 from
    h l.keys 0 hnd
  intro ks
  induction ks with
  | nil => intro i _; simp [keysMapFrom]
  | cons s rest ih =>
    intro i hnd2
    rw [List.nodup_cons] at hnd2
    unfold keysMapFrom
    rw [List.filter_cons]
    by_cases hs : s = k
    · subst hs
      rw [keysMapFrom_filter_nil s rest (i + 1) hnd2.1]
      simp
    · simp only [hs]
      simpa using ih (i + 1) hnd2.2

theorem keyRange_ne_nil (l : Layer) (k : String) (hmem : k ∈ l.keys) :
    ((keysMapOf l).filter (fun p => p.1 = k)) ≠ [] := by
  unfold keysMapOf
  suffices h : ∀ (ks : List String) (i : Nat), k ∈ ks →
      (keysMapFrom i ks).filter (fun p => p.1 = k) ≠ [] from
    h l.keys 0 hmem
  intro ks
  induction ks with
  | nil => intro i h; exact absurd h (List.not_mem_nil k)
  | cons s rest ih =>
    intro i hmem2
    unfold keysMapFrom
    rw [List.filter_cons]
    by_cases hs : s = k
    · simp [hs]
    · simp only [hs]
      have : k ∈ rest := by
        cases List.mem_cons.mp hmem2 with
        | inl h => exact absurd h.symm hs
        | inr h => exact h
      simpa using ih (i + 1) this


theorem getValueLoop_of_props (l : Layer) (k : String) (hnd : l.keys.Nodup) :
    ∀ (tags : List Nat) (m0 m : List (String × Value)) (v : Value),
      alookup m0 k = none → getPropertiesLoop l tags m0 = Except.ok m →
      alookup m k = some v →
      getValueLoop l ((keysMapOf l).filter (fun p => p.1 = k)) tags =
        Except.ok (v, none) ∧ k ∈ l.keys
  | [], m0, m, v, h0, h2, hk => by
    unfold getPropertiesLoop at h2
    injection h2 with h2
    subst h2
    rw [h0] at hk
    exact Option.noConfusion hk
  | [_], m0, m, v, h0, h2, hk => by
    unfold getPropertiesLoop at h2
    exact Except.noConfusion h2
  | tk :: tv :: rest, m0, m, v, h0, h2, hk => by
    unfold getPropertiesLoop at h2
    cases hkk : l.keys[tk % 2 ^ 32]? with
    | none => simp only [hkk] at h2; exact Except.noConfusion h2
    | some k0 =>
      cases hvv : l.values[tv % 2 ^ 32]? with
      | none => simp only [hkk, hvv] at h2; exact Except.noConfusion h2
      | some vw =>
        cases hpp : parseValue vw with
        | error e => simp only [hkk, hvv, hpp] at h2; exact Except.noConfusion h2
        | ok v0 =>
          simp only [hkk, hvv, hpp] at h2
          have hb : ¬ (l.values.length ≤ tv % 2 ^ 32) := by
            intro hge
            rw [List.getElem?_eq_none hge] at hvv
            exact Option.noConfusion hvv
          by_cases hek : k0 = k
          · subst hek
            have hany : (((keysMapOf l).filter (fun p => p.1 = k0)).any
                (fun p => p.2 = tk % 2 ^ 32)) = true :=
              (keyRange_any l k0 (tk % 2 ^ 32)).mpr hkk
            have h1 : alookup (emplaceAssoc m0 k0 v0) k0 = some v0 :=
              alookup_emplace_new h0
            have h3 : alookup m k0 = some v0 :=
              getPropertiesLoop_preserved l rest _ m k0 v0 h1 h2
            obtain rfl : v0 = v := by
              rw [hk] at h3
              exact (Option.some.inj h3).symm
            have hmem : k0 ∈ l.keys := List.getElem?_mem hkk
            have hlen1 : ¬ (1 < ((keysMapOf l).filter (fun p => p.1 = k0)).length) := by
              have hle := keyRange_len_le_one l k0 hnd
              omega
            refine ⟨?_, hmem⟩
            unfold getValueLoop
            rw [if_neg hb, if_pos hany, hvv]
            simp only [Option.getD_some, hpp, if_neg hlen1]
          · have hany : (((keysMapOf l).filter (fun p => p.1 = k)).any
                (fun p => p.2 = tk % 2 ^ 32)) = false := by
              cases hany0 : (((keysMapOf l).filter (fun p => p.1 = k)).any
                  (fun p => p.2 = tk % 2 ^ 32)) with
              | false => rfl
              | true =>
                have := (keyRange_any l k (tk % 2 ^ 32)).mp hany0
                rw [hkk] at this
                exact absurd (Option.some.inj this) hek
            have h0b : alookup (emplaceAssoc m0 k0 v0) k = none := by
              rw [alookup_emplace_other v0 hek]
              exact h0
            obtain ⟨hloop, hmem⟩ :=
              getValueLoop_of_props l k hnd rest (emplaceAssoc m0 k0 v0) m v h0b h2 hk
            refine ⟨?_, hmem⟩
            unfold getValueLoop
            rw [if_neg hb, if_neg (by rw [hany]; exact Bool.false_ne_true)]
            exact hloop

/-- C9: for a layer whose key names each resolve to exactly one key ordinal
(distinct key strings, the no-warning case) and a feature whose tag stream
decodes without error, the value the property map assigns to a present key
k is exactly what get_value returns for k, with no warning. -/
theorem c9_props_getValue (l : Layer) (tags : List Nat)
    (m : List (String × Value)) (k : String) (v : Value)
    (hnd : l.keys.Nodup) (h : getProperties l tags = Except.ok m)
    (hk : alookup m k = some v) :
    getValue l tags k = Except.ok (v, none) := by
  obtain ⟨hloop, hmem⟩ := getValueLoop_of_props l k hnd tags [] m v rfl h hk
  unfold getValue
  have hne := keyRange_ne_nil l k hmem
  rw [if_neg ?hc]
  case hc =>
    intro hlt
    have h0 : ((keysMapOf l).filter (fun p => p.1 = k)).length = 0 := by omega
    exact hne (List.length_eq_zero.mp h0)
  exact hloop

/-- Witness for c9_props_getValue: a two-key layer where properties and
get_value agree on key b. -/
theorem c9_props_getValue_witness :
    ((["a", "b"] : List String).Nodup ∧
      getProperties ⟨["a", "b"], [[(1, PBValue.str "x")], [(5, PBValue.varint 3)]]⟩
        [0, 0, 1, 1] =
        Except.ok [("a", Value.strVal "x"), ("b", Value.uintVal 3)] ∧
      alookup [("a", Value.strVal "x"), ("b", Value.uintVal 3)] "b" =
        some (Value.uintVal 3)) ∧
    getValue ⟨["a", "b"], [[(1, PBValue.str "x")], [(5, PBValue.varint 3)]]⟩
      [0, 0, 1, 1] "b" = Except.ok (Value.uintVal 3, none) :=
  ⟨⟨by decide, rfl, by decide⟩,
    c9_props_getValue ⟨["a", "b"], [[(1, PBValue.str "x")], [(5, PBValue.varint 3)]]⟩
      [0, 0, 1, 1] [("a", Value.strVal "x"), ("b", Value.uintVal 3)] "b"
      (Value.uintVal 3) (by decide) rfl (by decide)⟩


theorem getValueLoop_first_match (l : Layer) (range : List (String × Nat))
    (tk tv : Nat) (post : List (Nat × Nat)) (v : Value)
    (hdup : 1 < range.length)
    (htv : tv % 2 ^ 32 < l.values.length)
    (hmatch : (range.any (fun p => p.2 = tk % 2 ^ 32)) = true)
    (hparse : parseValue ((l.values[tv % 2 ^ 32]?).getD []) = Except.ok v) :
    ∀ pre : List (Nat × Nat),
      (∀ q ∈ pre, (range.any (fun p => p.2 = q.1 % 2 ^ 32)) = false ∧
        q.2 % 2 ^ 32 < l.values.length) →
      getValueLoop l range (flattenPairs (pre ++ (tk, tv) :: post)) =
        Except.ok (v, some dupKeysWarning)
  | [], _ => by
    show getValueLoop l range (tk :: tv :: flattenPairs post) = _
    unfold getValueLoop
    rw [if_neg (by omega), if_pos hmatch, hparse, if_pos hdup]
  | (qk, qv) :: pre2, hpre => by
    have hq := hpre (qk, qv) (List.mem_cons_self _ _)
    have hrest : ∀ q ∈ pre2, (range.any (fun p => p.2 = q.1 % 2 ^ 32)) = false ∧
        q.2 % 2 ^ 32 < l.values.length :=
      fun q hq2 => hpre q (List.mem_cons_of_mem _ hq2)
    show getValueLoop l range (qk :: qv :: flattenPairs (pre2 ++ (tk, tv) :: post)) = _
    unfold getValueLoop
    rw [if_neg (by omega), if_neg (by rw [hq.1]; exact Bool.false_ne_true)]
    exact getValueLoop_first_match l range tk tv post v hdup htv hmatch hparse pre2 hrest

/-- C8: when a key name is registered under more than one key ordinal
(duplicate-keys case), get_value scans the packed tag pairs in stream
order; earlier pairs that match no registered ordinal for the name are
passed over (their value ordinals must be in range), and the first pair
whose key ordinal equals any registered ordinal returns its parsed value
together with the non-fatal duplicate-keys warning. -/
theorem c8_dup_first_match (l : Layer) (k : String) (range : List (String × Nat))
    (pre post : List (Nat × Nat)) (tk tv : Nat) (v : Value)
    (hr : range = (keysMapOf l).filter (fun p => p.1 = k))
    (hdup : 1 < range.length)
    (hpre : ∀ q ∈ pre, (range.any (fun p => p.2 = q.1 % 2 ^ 32)) = false ∧
      q.2 % 2 ^ 32 < l.values.length)
    (htv : tv % 2 ^ 32 < l.values.length)
    (hmatch : (range.any (fun p => p.2 = tk % 2 ^ 32)) = true)
    (hparse : parseValue ((l.values[tv % 2 ^ 32]?).getD []) = Except.ok v) :
    getValue l (flattenPairs (pre ++ (tk, tv) :: post)) k =
      Except.ok (v, some dupKeysWarning) := by
  subst hr
  unfold getValue
  rw [if_neg (by omega)]
  exact getValueLoop_first_match l _ tk tv post v hdup htv hmatch hparse pre hpre

/-- Witness for c8_dup_first_match: key color registered at ordinals 0 and
2; the pair (1,0) does not match, the pair (2,1) is the first match and
returns the second value with the warning. -/
theorem c8_dup_first_match_witness :
    (((keysMapFrom 0 ["color", "x", "color"]).filter (fun p => p.1 = "color")).length > 1 ∧
      getValue ⟨["color", "x", "color"], [[(1, PBValue.str "red")], [(1, PBValue.str "blue")]]⟩
        (flattenPairs ([(1, 0)] ++ (2, 1) :: [])) "color" =
        Except.ok (Value.strVal "blue", some dupKeysWarning)) :=
  ⟨by decide,
    c8_dup_first_match
      ⟨["color", "x", "color"], [[(1, PBValue.str "red")], [(1, PBValue.str "blue")]]⟩
      "color"
      ((keysMapOf ⟨["color", "x", "color"],
        [[(1, PBValue.str "red")], [(1, PBValue.str "blue")]]⟩).filter
          (fun p => p.1 = "color"))
      [(1, 0)] [] 2 1 (Value.strVal "blue")
      rfl (by decide) (by decide) (by decide) (by decide) (by decide)⟩

end VectorTile
